import Mathlib

/-!
# CyberpunkSaveEditor: filesystem session lifecycle and name resolver

A shallow embedding of

* `source/cpfs_winfsp/cpfs.hpp` (`struct cpfs`: `reset`, `init`, `load_archives`, `start`,
  `shutdown`, `is_started`), and
* `source/cpinternals/ctypes/CName_.cpp` (`CName_resolver::register_name`,
  `CName_resolver::feed`).

Pointers are `Option Handle` (`none` is `nullptr`), every call into the host (WinFsp, the
operating system, the content index) is recorded in a list of `HostCall`s, and the outcome of
each such call is an explicit argument of the operation that makes it.  A failed `assert` and a
thrown exception are the two `Abort` results.
-/

set_option autoImplicit false

namespace cp

/-! ## Host types -/

/-- A 32-bit signed host status code. -/
abbrev NTSTATUS := Int

/-- The host header's success test on a status code: `((NTSTATUS)(Status)) >= 0`. -/
def NT_SUCCESS (Status : NTSTATUS) : Bool := decide (0 ≤ Status)

/-- A non-null `FSP_FILE_SYSTEM*`. -/
abbrev Handle := Nat

/-- A `std::filesystem::path`, as its sequence of components. -/
abbrev path := List String

/-- The member `path::parent_path()`: the path without its last component. -/
def path.parent_path (p : path) : path := p.dropLast

/-- The member `path::filename()`: the last component, empty for the empty path. -/
def path.filename (p : path) : String := p.getLast?.getD ""

/-- The member `path::string()`. -/
def path.string (p : path) : String := String.intercalate "/" p

/-- The suffix of a name that starts at its rightmost period, if it has one. -/
def dot_suffix : List Char → Option (List Char)
  | [] => none
  | c :: cs =>
    match dot_suffix cs with
    | some e => some e
    | none => if c = '.' then some (c :: cs) else none

/-- The member `path::extension()` applied to a file name: the suffix from the rightmost period on;
empty for the special names `.` and `..`, for a name without a period, and for a name whose only
period is its first character. -/
def extension (fname : String) : String :=
  if fname = "." ∨ fname = ".." then ""
  else
    match fname.toList with
    | [] => ""
    | _ :: rest => String.mk ((dot_suffix rest).getD [])

/-- Modelled from the spec: `cp::starts_with` is declared in `cpinternals/common.hpp`; the spec's
"name begins with a language-pack prefix" is the test that the second string is an initial segment
of the first. -/
def starts_with (s pre : String) : Bool := pre.toList.isPrefixOf s.toList

/-- An element produced by `std::filesystem::directory_iterator`. -/
structure directory_entry where
  path : path
  deriving DecidableEq, Repr

/-- The fields of `FSP_FSCTL_VOLUME_PARAMS` that the constructor of `cpfs` assigns. -/
structure FSP_FSCTL_VOLUME_PARAMS where
  SectorSize : Nat
  SectorsPerAllocationUnit : Nat
  VolumeCreationTime : Nat
  VolumeSerialNumber : Nat
  FileInfoTimeout : Nat
  ReparsePointsAccessCheck : Nat
  ReparsePoints : Nat
  CaseSensitiveSearch : Nat
  CasePreservedNames : Nat
  UnicodeOnDisk : Nat
  PersistentAcls : Nat
  NamedStreams : Nat
  ReadOnlyVolume : Nat
  PostCleanupWhenModifiedOnly : Nat
  PassQueryDirectoryPattern : Nat
  FlushAndPurgeOnCleanup : Nat
  UmFileContextIsUserContext2 : Nat
  FileSystemName : String
  deriving DecidableEq, Repr

/-- A call that leaves the session: into the host framework, the operating system, the codec or
the content index.  Logging (`SPDLOG_*`, `scope_timer`) is not recorded. -/
inductive HostCall where
  | get_cp_executable_path
  | filesystem_exists (p : path)
  | oodle_is_available
  | MessageBoxA (text : String)
  | FspLoad
  | FspFileSystemCreate
  | set_UserContext (fs : Handle)
  | FspFileSystemSetMountPoint (fs : Handle)
  | FspFileSystemMountPoint (fs : Handle)
  | FspFileSystemSetDebugLog (fs : Handle) (lvl : Nat)
  | FspFileSystemStartDispatcher (fs : Handle)
  | FspFileSystemStopDispatcher (fs : Handle)
  | FspFileSystemDelete (fs : Handle)
  | directory_iterator (p : path)
  | load_archive (p : String)
  deriving DecidableEq, Repr

/-- The two ways a member function can fail to return. -/
inductive Abort where
  | assertion_failed
  | filesystem_error
  deriving DecidableEq, Repr

/-! ## The session -/

/-- The data members of `struct cpfs` (the mutex `mtx` carries no data).  The content index `tfs`
is a collaborator of type `τ`. -/
structure cpfs (τ : Type) where
  has_diffdir : Bool
  diffdir_path : path
  disk_letter : String
  volume_label : String
  content_path : path
  tfs : τ
  m_started : Bool
  m_fsp_fs : Option Handle
  m_volume_params : FSP_FSCTL_VOLUME_PARAMS

/-- What a member function leaves behind when it returns: its return value, the session, and the
host calls it made, in order. -/
structure Ret (τ α : Type) where
  value : α
  self : cpfs τ
  calls : List HostCall

/-- The outcomes of the external calls `init` can make. `create_fs` is the handle the host stores
through the out-parameter of `FspFileSystemCreate` when that call succeeds; on failure the host
stores a null pointer. -/
structure init_outcomes where
  cp_executable_path : Option path
  content_exists : Bool
  oodle_available : Bool
  fsp_load : NTSTATUS
  create_status : NTSTATUS
  create_fs : Handle
  set_mount_point : NTSTATUS
  mount_point : String

section session

variable {τ : Type}

/-- The constructor `cpfs::cpfs()` together with the default member initialisers; `now` is the
clock reading and `tfs0` the default-constructed content index. -/
def cpfs.new (now : Nat) (tfs0 : τ) : cpfs τ where
  has_diffdir := false
  diffdir_path := []
  disk_letter := ""
  volume_label := "CP2077 Game Depot"
  content_path := []
  tfs := tfs0
  m_started := false
  m_fsp_fs := none
  m_volume_params :=
    { SectorSize := 1
      SectorsPerAllocationUnit := 1
      VolumeCreationTime := now
      VolumeSerialNumber := 0
      FileInfoTimeout := 1000
      ReparsePointsAccessCheck := 1
      ReparsePoints := 1
      CaseSensitiveSearch := 0
      CasePreservedNames := 1
      UnicodeOnDisk := 1
      PersistentAcls := 1
      NamedStreams := 1
      ReadOnlyVolume := 1
      PostCleanupWhenModifiedOnly := 1
      PassQueryDirectoryPattern := 1
      FlushAndPurgeOnCleanup := 1
      UmFileContextIsUserContext2 := 1
      FileSystemName := "CPFS" }

/-- The member `cpfs::is_started`. -/
def cpfs.is_started (self : cpfs τ) : Bool := self.m_started

/-- The member `cpfs::shutdown`. -/
def cpfs.shutdown (self : cpfs τ) : Except Abort (Ret τ Unit) :=
  if self.m_started then
    match self.m_fsp_fs with
    | none => .error .assertion_failed
    | some fs =>
      .ok ⟨(), { self with m_started := false }, [.FspFileSystemStopDispatcher fs]⟩
  else
    .ok ⟨(), self, []⟩

/-- The member `cpfs::reset` (the destructor `cpfs::~cpfs` is a call of it). -/
def cpfs.reset (self : cpfs τ) : Except Abort (Ret τ Unit) :=
  match (if self.is_started then self.shutdown else .ok ⟨(), self, []⟩) with
  | .error e => .error e
  | .ok r =>
    match r.self.m_fsp_fs with
    | some fs =>
      .ok ⟨(), { r.self with m_fsp_fs := none }, r.calls ++ [.FspFileSystemDelete fs]⟩
    | none => .ok ⟨(), r.self, r.calls⟩

/-- The member `cpfs::init`. -/
def cpfs.init (self : cpfs τ) (fsp_loglvl : Nat) (env : init_outcomes) :
    Except Abort (Ret τ Bool) :=
  if self.m_fsp_fs.isSome then
    .ok ⟨false, self, []⟩
  else
    match env.cp_executable_path with
    | none =>
      .ok ⟨false, self,
        [.get_cp_executable_path, .MessageBoxA "Game path could not be located"]⟩
    | some game_bin_path =>
      let game_path := game_bin_path.parent_path.parent_path.parent_path
      let s1 : cpfs τ := { self with content_path := game_path ++ ["archive", "pc", "content"] }
      let c1 : List HostCall := [.get_cp_executable_path, .filesystem_exists s1.content_path]
      if !env.content_exists then
        .ok ⟨false, s1, c1 ++ [.MessageBoxA "Game content path could not be located"]⟩
      else if !env.oodle_available then
        .ok ⟨false, s1,
          c1 ++ [.oodle_is_available, .MessageBoxA "oodle couldn't be loaded"]⟩
      else if !NT_SUCCESS env.fsp_load then
        .ok ⟨false, s1,
          c1 ++ [.oodle_is_available, .FspLoad,
            .MessageBoxA "WinFSP couldn't be loaded (install it first..)"]⟩
      else
        let c2 : List HostCall := c1 ++ [.oodle_is_available, .FspLoad, .FspFileSystemCreate]
        if !NT_SUCCESS env.create_status then
          .ok ⟨false, { s1 with m_fsp_fs := none }, c2⟩
        else
          let fs := env.create_fs
          let s2 : cpfs τ := { s1 with m_fsp_fs := some fs }
          let c3 : List HostCall := c2 ++ [.set_UserContext fs, .FspFileSystemSetMountPoint fs]
          if !NT_SUCCESS env.set_mount_point then
            match s2.reset with
            | .error e => .error e
            | .ok r => .ok ⟨false, r.self, c3 ++ r.calls⟩
          else
            .ok ⟨true, { s2 with disk_letter := env.mount_point },
              c3 ++ [.FspFileSystemMountPoint fs, .FspFileSystemSetDebugLog fs fsp_loglvl]⟩

/-- The body of the `for` loop of `cpfs::load_archives` over the remaining directory entries:
the content index after the loop and the loads made, in order. `load_archive` is the content
index's load operation, whose success flag the loop discards. -/
def cpfs.load_archives_loop (load_archive : τ → String → Bool × τ) :
    List directory_entry → τ → τ × List HostCall
  | [], tfs => (tfs, [])
  | dirent :: rest, tfs =>
    let fname := dirent.path.filename
    let sfname := fname
    if extension fname = ".archive" then
      if starts_with sfname "lang_" then
        if !starts_with sfname "lang_en" then
          cpfs.load_archives_loop load_archive rest tfs
        else
          let tfs1 := (load_archive tfs dirent.path.string).2
          let r := cpfs.load_archives_loop load_archive rest tfs1
          (r.1, .load_archive dirent.path.string :: r.2)
      else
        let tfs1 := (load_archive tfs dirent.path.string).2
        let r := cpfs.load_archives_loop load_archive rest tfs1
        (r.1, .load_archive dirent.path.string :: r.2)
    else
      cpfs.load_archives_loop load_archive rest tfs

/-- The member `cpfs::load_archives`. `dir` is the outcome of opening
`std::filesystem::directory_iterator(content_path)`: `none` when it throws, otherwise the entries
it yields. -/
def cpfs.load_archives (load_archive : τ → String → Bool × τ) (self : cpfs τ)
    (dir : Option (List directory_entry)) : Except Abort (Ret τ Bool) :=
  match dir with
  | none => .error .filesystem_error
  | some entries =>
    let r := cpfs.load_archives_loop load_archive entries self.tfs
    .ok ⟨true, { self with tfs := r.1 }, .directory_iterator self.content_path :: r.2⟩

/-- The member `cpfs::start`. `Status` is the result of `FspFileSystemStartDispatcher`, should the
call be made. -/
def cpfs.start (self : cpfs τ) (Status : NTSTATUS) : Ret τ Bool :=
  match self.m_fsp_fs with
  | none => ⟨false, self, []⟩
  | some fs =>
    if self.m_started then
      ⟨false, self, []⟩
    else if !NT_SUCCESS Status then
      ⟨false, self, [.FspFileSystemStartDispatcher fs]⟩
    else
      ⟨true, { self with m_started := true }, [.FspFileSystemStartDispatcher fs]⟩

end session

/-! ## Sequences of calls -/

/-- One call of a lifecycle member function by the owner of the session, with the outcomes of the
external calls it may make. -/
inductive Call where
  | init (fsp_loglvl : Nat) (env : init_outcomes)
  | load_archives (dir : Option (List directory_entry))
  | start (Status : NTSTATUS)
  | shutdown
  | reset

section run

variable {τ : Type}

/-- The session after one call and the host calls made. A failed assertion ends the process; an
exception thrown by the directory iterator reaches the caller before `load_archives` has touched
the session, and the caller may go on using it. -/
def cpfs.call (load_archive : τ → String → Bool × τ) (self : cpfs τ) :
    Call → Except Abort (cpfs τ × List HostCall)
  | .init fsp_loglvl env =>
    match self.init fsp_loglvl env with
    | .ok r => .ok (r.self, r.calls)
    | .error e => .error e
  | .load_archives dir =>
    match self.load_archives load_archive dir with
    | .ok r => .ok (r.self, r.calls)
    | .error .filesystem_error => .ok (self, [.directory_iterator self.content_path])
    | .error e => .error e
  | .start Status => .ok ((self.start Status).self, (self.start Status).calls)
  | .shutdown =>
    match self.shutdown with
    | .ok r => .ok (r.self, r.calls)
    | .error e => .error e
  | .reset =>
    match self.reset with
    | .ok r => .ok (r.self, r.calls)
    | .error e => .error e

/-- A sequence of calls, first to last. -/
def cpfs.run (load_archive : τ → String → Bool × τ) :
    List Call → cpfs τ → Except Abort (cpfs τ × List HostCall)
  | [], self => .ok (self, [])
  | c :: cs, self =>
    match self.call load_archive c with
    | .error e => .error e
    | .ok (s1, calls1) =>
      match cpfs.run load_archive cs s1 with
      | .error e => .error e
      | .ok (s2, calls2) => .ok (s2, calls1 ++ calls2)

end run

/-! ## The name resolver -/

/-- Modelled from the spec: `fnv1a64` is declared in `cpinternals/common.hpp`; the spec's "64-bit
hash computed by a fixed non-cryptographic hash function over the raw byte content" is the 64-bit
FNV-1a hash that `CName::CName` calls by name. -/
def fnv1a64 (sv : String) : Nat :=
  (sv.data.flatMap String.utf8EncodeChar).foldl
    (fun h b => ((h ^^^ b.toNat) * 0x100000001b3) % 2 ^ 64) 0xcbf29ce484222325

/-- A pooled name (`gstring<'GNAM'>`), as the string its `strv()` returns. -/
structure gname where
  strv : String
  deriving DecidableEq, Repr

/-- The literal operator `_gn`. -/
def gn (str : String) : gname := ⟨str⟩

/-- The spec's `hash_of` for the repository's hash function. -/
def gname.hash (name : gname) : Nat := fnv1a64 name.strv

/-- The loop of `std::lower_bound` on `[first, first + count)`, with the order of the elements
given by `hash_of`; `fuel` bounds the number of iterations. -/
def lower_bound_loop (hash_of : gname → Nat) (vec : List gname) (key : Nat) :
    Nat → Nat → Nat → Nat
  | 0, first, _ => first
  | fuel + 1, first, count =>
    if count = 0 then first
    else
      let step := count / 2
      match vec[first + step]? with
      | none => first -- not reached: `first + count` never exceeds the size of the vector
      | some x =>
        if hash_of x < key then
          lower_bound_loop hash_of vec key fuel (first + step + 1) (count - (step + 1))
        else
          lower_bound_loop hash_of vec key fuel first step

/-- The index `std::lower_bound(vec.begin(), vec.end(), item)` returns. Every iteration makes
`count` smaller, so `vec.length` iterations are enough. -/
def lower_bound (hash_of : gname → Nat) (vec : List gname) (key : Nat) : Nat :=
  lower_bound_loop hash_of vec key vec.length 0 vec.length

/-- The vector after `insert_sorted_nodupe`, the position it returns, and its flag. -/
structure insert_result where
  vec : List gname
  first : Nat
  second : Bool

/-- Modelled from the spec: `insert_sorted_nodupe` is declared in `cpinternals/common.hpp`; the
spec's "insert-if-absent semantics over a sorted collection, using the hash as sort key", with an
"ordered search in logarithmic time" that "keeps the dedupe check and insertion a single pass":
one binary search by hash gives the position; if the entry there has the hash of `item` nothing is
inserted and the flag is false, otherwise `item` is inserted there and the flag is true. -/
def insert_sorted_nodupe (hash_of : gname → Nat) (vec : List gname) (item : gname) :
    insert_result :=
  let it := lower_bound hash_of vec (hash_of item)
  match vec[it]? with
  | some x =>
    if hash_of x = hash_of item then ⟨vec, it, false⟩
    else ⟨vec.take it ++ item :: vec.drop it, it, true⟩
  | none => ⟨vec.take it ++ item :: vec.drop it, it, true⟩

/-- The data member of `CName_resolver` that `register_name` and `feed` use. -/
structure CName_resolver where
  m_full_list : List gname
  deriving DecidableEq, Repr

/-- The member `CName_resolver::register_name`. -/
def CName_resolver.register_name (hash_of : gname → Nat) (self : CName_resolver)
    (name : gname) : CName_resolver :=
  let p := insert_sorted_nodupe hash_of self.m_full_list name
  if !p.second then ⟨p.vec⟩ else ⟨p.vec⟩

/-- The `for` loop of `CName_resolver::feed` over the remaining names. -/
def CName_resolver.feed_loop (hash_of : gname → Nat) :
    List gname → CName_resolver → CName_resolver
  | [], self => self
  | name :: rest, self =>
    CName_resolver.feed_loop hash_of rest (self.register_name hash_of name)

/-- The member `CName_resolver::feed`; `reserve` changes the capacity of the vector only. -/
def CName_resolver.feed (hash_of : gname → Nat) (self : CName_resolver)
    (names : List gname) : CName_resolver :=
  CName_resolver.feed_loop hash_of names self

/-- The constructor `CName::CName(name, add_to_resolver)`: the value `as_u64` and the resolver
after it. -/
def CName.new (name : String) (add_to_resolver : Bool) (resolver : CName_resolver) :
    Nat × CName_resolver :=
  let as_u64 := fnv1a64 name
  if add_to_resolver then (as_u64, resolver.register_name gname.hash (gn name))
  else (as_u64, resolver)

/-! ## Properties the specification names -/

/-- The spec's admission rule of `load_archives`: the extension is the archive extension, and the
file name either does not begin with the language-pack prefix or matches the configured language
(English). -/
def admitted (dirent : directory_entry) : Bool :=
  decide (extension dirent.path.filename = ".archive") &&
    (!starts_with dirent.path.filename "lang_" || starts_with dirent.path.filename "lang_en")

/-- A registry sorted by hash with no two entries of equal hash. -/
def sorted_nodupe (hash_of : gname → Nat) (vec : List gname) : Prop :=
  vec.Pairwise (fun a b => hash_of a < hash_of b)

instance (hash_of : gname → Nat) (vec : List gname) : Decidable (sorted_nodupe hash_of vec) := by
  unfold sorted_nodupe
  infer_instance

/-- The session invariant: a started session holds a volume handle. -/
def cpfs.started_has_handle {τ : Type} (self : cpfs τ) : Prop :=
  self.m_started = true → self.m_fsp_fs.isSome = true

/-! ## Sample sessions and collaborators -/

/-- A content index that keeps the paths it was asked to load, in order. -/
def recording_index (tfs : List String) (p : String) : Bool × List String := (true, tfs ++ [p])

/-- A freshly constructed session over the recording index. -/
def fresh_session : cpfs (List String) := cpfs.new 0 []

/-- Outcomes under which `init` fails at the mount point, after the handle `7` was created. -/
def mount_point_refused : init_outcomes where
  cp_executable_path := some ["C:", "game", "bin", "x64", "Cyberpunk2077.exe"]
  content_exists := true
  oodle_available := true
  fsp_load := 0
  create_status := 0
  create_fs := 7
  set_mount_point := -1
  mount_point := ""

/-! ## The session: lemmas -/

section session_lemmas

variable {τ : Type}

theorem shutdown_of_started_has_handle (s : cpfs τ) (h : s.started_has_handle) :
    ∃ r, s.shutdown = .ok r ∧ r.self = { s with m_started := false } ∧
      (s.m_started = false → r = ⟨(), s, []⟩) ∧
      (∀ fs, s.m_started = true → s.m_fsp_fs = some fs →
        r.calls = [.FspFileSystemStopDispatcher fs]) := by
  rcases s with ⟨a, b, c, d, e, f, started, fs, vp⟩
  cases started <;> cases fs <;> simp_all [cpfs.shutdown, cpfs.started_has_handle]

/-- The host calls `reset` makes on a session that satisfies the invariant. -/
theorem reset_of_started_has_handle (s : cpfs τ) (h : s.started_has_handle) :
    s.reset = .ok ⟨(), { s with m_started := false, m_fsp_fs := none },
      match s.m_fsp_fs with
      | none => []
      | some fs =>
        (if s.m_started then [HostCall.FspFileSystemStopDispatcher fs] else []) ++
          [HostCall.FspFileSystemDelete fs]⟩ := by
  rcases s with ⟨a, b, c, d, e, f, started, fs, vp⟩
  cases started <;> cases fs <;>
    simp_all [cpfs.reset, cpfs.shutdown, cpfs.is_started, cpfs.started_has_handle]

theorem init_of_started_has_handle (s : cpfs τ) (lvl : Nat) (env : init_outcomes)
    (h : s.started_has_handle) :
    ∃ r, s.init lvl env = .ok r ∧ r.self.started_has_handle := by
  rcases s with ⟨a, b, c, d, e, f, started, fs, vp⟩
  rcases env with ⟨exe, ex, oo, ld, cs, cfs, mp, mpt⟩
  cases started <;> cases fs <;> cases exe <;> cases ex <;> cases oo <;>
    cases hl : NT_SUCCESS ld <;> cases hc : NT_SUCCESS cs <;> cases hm : NT_SUCCESS mp <;>
    simp_all [cpfs.init, cpfs.reset, cpfs.shutdown, cpfs.is_started, cpfs.started_has_handle]

theorem load_archives_loop_eq (load_archive : τ → String → Bool × τ)
    (entries : List directory_entry) (tfs : τ) :
    cpfs.load_archives_loop load_archive entries tfs =
      ((entries.filter admitted).foldl (fun t d => (load_archive t d.path.string).2) tfs,
        (entries.filter admitted).map (fun d => HostCall.load_archive d.path.string)) := by
  induction entries generalizing tfs with
  | nil => rfl
  | cons d rest ih =>
    by_cases hx : extension d.path.filename = ".archive" <;>
      cases hl : starts_with d.path.filename "lang_" <;>
      cases he : starts_with d.path.filename "lang_en" <;>
      simp [cpfs.load_archives_loop, admitted, List.filter_cons, hx, hl, he, ih]

theorem call_of_started_has_handle (load_archive : τ → String → Bool × τ) (s : cpfs τ)
    (c : Call) (h : s.started_has_handle) :
    ∃ s1 log, s.call load_archive c = .ok (s1, log) ∧ s1.started_has_handle := by
  cases c with
  | init lvl env =>
    obtain ⟨r, hr, hi⟩ := init_of_started_has_handle s lvl env h
    exact ⟨r.self, r.calls, by simp [cpfs.call, hr], hi⟩
  | load_archives dir =>
    cases dir with
    | none => exact ⟨s, [.directory_iterator s.content_path], rfl, h⟩
    | some entries => exact ⟨_, _, rfl, h⟩
  | start Status =>
    refine ⟨_, _, rfl, ?_⟩
    rcases s with ⟨a, b, c, d, e, f, started, fs, vp⟩
    cases started <;> cases fs <;> cases hs : NT_SUCCESS Status <;>
      simp_all [cpfs.start, cpfs.started_has_handle]
  | shutdown =>
    obtain ⟨r, hr, hs, -, -⟩ := shutdown_of_started_has_handle s h
    refine ⟨r.self, r.calls, by simp [cpfs.call, hr], ?_⟩
    simp [hs, cpfs.started_has_handle]
  | reset =>
    simp only [cpfs.call, reset_of_started_has_handle s h]
    exact ⟨_, _, rfl, by simp [cpfs.started_has_handle]⟩

end session_lemmas

/-! ## The session: claims -/

section session_claims

variable {τ : Type}

/-- C1, as amended: on a freshly constructed session `start()` returns failure and `shutdown()`
returns, each with no host call at all and with every field of the session unchanged, and
`is_started()` is false afterwards. `load_archives()` is not rejected: it opens the directory
iterator on the empty content path and either raises when that fails, or loads every admitted
entry and returns success, changing the content index only and calling no dispatcher function. -/
theorem fresh_session_calls (now : Nat) (tfs0 : τ) (load_archive : τ → String → Bool × τ)
    (Status : NTSTATUS) :
    (cpfs.new now tfs0).start Status = ⟨false, cpfs.new now tfs0, []⟩ ∧
    ((cpfs.new now tfs0).start Status).self.is_started = false ∧
    (cpfs.new now tfs0).shutdown = .ok ⟨(), cpfs.new now tfs0, []⟩ ∧
    (cpfs.new now tfs0).load_archives load_archive none = .error .filesystem_error ∧
    ∀ entries : List directory_entry,
      (cpfs.new now tfs0).load_archives load_archive (some entries) =
        .ok ⟨true,
          { cpfs.new now tfs0 with
            tfs := (entries.filter admitted).foldl
              (fun t d => (load_archive t d.path.string).2) tfs0 },
          .directory_iterator [] ::
            (entries.filter admitted).map (fun d => HostCall.load_archive d.path.string)⟩ := by
  refine ⟨rfl, rfl, rfl, rfl, ?_⟩
  intro entries
  simp [cpfs.load_archives, load_archives_loop_eq, cpfs.new]

/-- C1, refuted as stated: `load_archives()` on a freshly constructed session raises when the
directory iterator cannot be opened, and otherwise returns success after loading the admitted
entries into the content index; under no outcome does it return failure. -/
theorem fresh_load_archives_not_rejected :
    fresh_session.load_archives recording_index none = .error .filesystem_error ∧
    fresh_session.load_archives recording_index (some [⟨["basegame.archive"]⟩]) =
      .ok ⟨true, { fresh_session with tfs := ["basegame.archive"] },
        [.directory_iterator [], .load_archive "basegame.archive"]⟩ ∧
    ¬ ∃ dir st calls,
      fresh_session.load_archives recording_index dir = .ok ⟨false, st, calls⟩ := by
  refine ⟨rfl, rfl, ?_⟩
  rintro ⟨dir, st, calls, h⟩
  cases dir <;> simp [cpfs.load_archives] at h

/-- C2: `start()` returns success exactly when the handle is present, the session is not started
and the dispatcher start succeeds; on success the only change is `m_started = true`, on failure
the session is unchanged, and the dispatcher is called only when the handle is present and the
session is not started. -/
theorem start_success_iff (s : cpfs τ) (Status : NTSTATUS) :
    ((s.start Status).value = true ↔
      s.m_fsp_fs.isSome = true ∧ s.m_started = false ∧ NT_SUCCESS Status = true) ∧
    ((s.start Status).value = true → (s.start Status).self = { s with m_started := true }) ∧
    ((s.start Status).value = false → (s.start Status).self = s) ∧
    (s.m_fsp_fs = none ∨ s.m_started = true → (s.start Status).calls = []) ∧
    (∀ fs, s.m_fsp_fs = some fs → s.m_started = false →
      (s.start Status).calls = [.FspFileSystemStartDispatcher fs]) := by
  rcases s with ⟨a, b, c, d, e, f, started, fs, vp⟩
  cases started <;> cases fs <;> cases hs : NT_SUCCESS Status <;> simp [cpfs.start, hs]

/-- C7: `load_archives()` returns success after calling the content index's load once for each
admitted entry of the listing, in enumeration order and whatever the loads return, and for no
other entry; `lang_fr_voice.archive` is not admitted, `lang_en_voice.archive` and
`basegame.archive` are. -/
theorem load_archives_admitted (load_archive : τ → String → Bool × τ) (s : cpfs τ)
    (entries : List directory_entry) :
    s.load_archives load_archive (some entries) =
      .ok ⟨true,
        { s with
          tfs := (entries.filter admitted).foldl
            (fun t d => (load_archive t d.path.string).2) s.tfs },
        .directory_iterator s.content_path ::
          (entries.filter admitted).map (fun d => HostCall.load_archive d.path.string)⟩ ∧
    (∀ d : directory_entry, admitted d = true ↔
      extension d.path.filename = ".archive" ∧
        (starts_with d.path.filename "lang_" = false ∨
          starts_with d.path.filename "lang_en" = true)) ∧
    (∀ dir : path, admitted ⟨dir ++ ["lang_fr_voice.archive"]⟩ = false) ∧
    (∀ dir : path, admitted ⟨dir ++ ["lang_en_voice.archive"]⟩ = true) ∧
    (∀ dir : path, admitted ⟨dir ++ ["basegame.archive"]⟩ = true) := by
  refine ⟨?_, ?_, ?_, ?_, ?_⟩
  · simp [cpfs.load_archives, load_archives_loop_eq]
  · intro d
    simp [admitted]
  · intro dir
    have : path.filename (dir ++ ["lang_fr_voice.archive"]) = "lang_fr_voice.archive" := by
      simp [path.filename]
    simp only [admitted, this]
    decide
  · intro dir
    have : path.filename (dir ++ ["lang_en_voice.archive"]) = "lang_en_voice.archive" := by
      simp [path.filename]
    simp only [admitted, this]
    decide
  · intro dir
    have : path.filename (dir ++ ["basegame.archive"]) = "basegame.archive" := by
      simp [path.filename]
    simp only [admitted, this]
    decide

/-- C8: `init` on a session that already holds a handle returns failure, changes nothing and
makes no host call; `init` on an Unconfigured session returns, succeeds exactly when every
prerequisite and host call succeeds, leaves the handle absent and the session not started
whenever it fails, and leaves the handle present exactly when it succeeds. -/
theorem init_failure_keeps_unconfigured (s : cpfs τ) (fsp_loglvl : Nat) (env : init_outcomes) :
    (s.m_fsp_fs.isSome = true → s.init fsp_loglvl env = .ok ⟨false, s, []⟩) ∧
    (s.m_fsp_fs = none → s.m_started = false →
      ∃ r, s.init fsp_loglvl env = .ok r ∧
        (r.value = false → r.self.m_fsp_fs = none ∧ r.self.m_started = false) ∧
        (r.self.m_fsp_fs.isSome = true ↔ r.value = true) ∧
        (r.value = true ↔
          env.cp_executable_path.isSome = true ∧ env.content_exists = true ∧
          env.oodle_available = true ∧ NT_SUCCESS env.fsp_load = true ∧
          NT_SUCCESS env.create_status = true ∧ NT_SUCCESS env.set_mount_point = true) ∧
        r.self.m_started = false) := by
  rcases s with ⟨a, b, c, d, e, f, started, fs, vp⟩
  rcases env with ⟨exe, ex, oo, ld, cs, cfs, mp, mpt⟩
  cases started <;> cases fs <;> cases exe <;> cases ex <;> cases oo <;>
    cases hl : NT_SUCCESS ld <;> cases hc : NT_SUCCESS cs <;> cases hm : NT_SUCCESS mp <;>
    simp_all [cpfs.init, cpfs.reset, cpfs.shutdown, cpfs.is_started]

/-- C9: every sequence of `init`, `load_archives`, `start`, `shutdown` and `reset` calls on a
freshly constructed session, under any outcomes of the host calls, runs to its end without a
failed assertion, and in the session it reaches the started flag is set only if the handle is
present; so a further `shutdown()` or `reset()` passes its assertion too. -/
theorem run_started_has_handle (load_archive : τ → String → Bool × τ) (now : Nat) (tfs0 : τ)
    (calls : List Call) :
    ∃ s log, cpfs.run load_archive calls (cpfs.new now tfs0) = .ok (s, log) ∧
      (s.m_started = true → s.m_fsp_fs.isSome = true) ∧
      (∃ r, s.shutdown = .ok r) ∧ (∃ r, s.reset = .ok r) := by
  have key : ∀ (cs : List Call) (s0 : cpfs τ), s0.started_has_handle →
      ∃ s log, cpfs.run load_archive cs s0 = .ok (s, log) ∧ s.started_has_handle := by
    intro cs
    induction cs with
    | nil => intro s0 h0; exact ⟨s0, [], rfl, h0⟩
    | cons c cs ih =>
      intro s0 h0
      obtain ⟨s1, log1, h1, hi1⟩ := call_of_started_has_handle load_archive s0 c h0
      obtain ⟨s2, log2, h2, hi2⟩ := ih s1 hi1
      exact ⟨s2, log1 ++ log2, by simp [cpfs.run, h1, h2], hi2⟩
  obtain ⟨s, log, hrun, hinv⟩ := key calls (cpfs.new now tfs0) (by simp [cpfs.started_has_handle, cpfs.new])
  refine ⟨s, log, hrun, hinv, ?_, ?_⟩
  · obtain ⟨r, hr, -⟩ := shutdown_of_started_has_handle s hinv
    exact ⟨r, hr⟩
  · exact ⟨_, reset_of_started_has_handle s hinv⟩

end session_claims

/-! ## The resolver: lemmas -/

section resolver_lemmas

variable (hash_of : gname → Nat)

theorem drop_of_getElem? {α : Type} (l : List α) (n : Nat) (x : α) (h : l[n]? = some x) :
    l.drop n = x :: l.drop (n + 1) := by
  induction l generalizing n with
  | nil => simp at h
  | cons a l ih =>
    cases n with
    | zero => simp_all
    | succ n => simpa using ih n (by simpa using h)

theorem take_succ_of_getElem? {α : Type} (l : List α) (n : Nat) (x : α) (h : l[n]? = some x) :
    l.take (n + 1) = l.take n ++ [x] := by
  induction l generalizing n with
  | nil => simp at h
  | cons a l ih =>
    cases n with
    | zero => simp_all
    | succ n => simpa using ih n (by simpa using h)

theorem mem_take_cons_drop {α : Type} (l : List α) (k : Nat) (n x : α) :
    x ∈ l.take k ++ n :: l.drop k ↔ x = n ∨ x ∈ l := by
  constructor
  · intro h
    rcases List.mem_append.1 h with h | h
    · exact Or.inr (List.mem_of_mem_take h)
    · rcases List.mem_cons.1 h with h | h
      · exact Or.inl h
      · exact Or.inr (List.mem_of_mem_drop h)
  · rintro (h | h)
    · simp [h]
    · rw [← List.take_append_drop k l] at h
      rcases List.mem_append.1 h with h | h
      · exact List.mem_append.2 (Or.inl h)
      · exact List.mem_append.2 (Or.inr (List.mem_cons_of_mem _ h))

/-- On a vector sorted by hash the binary search keeps its invariant: everything before the
position it returns has a smaller hash than the key, everything from it on does not. -/
theorem lower_bound_loop_partitions (vec : List gname) (key : Nat)
    (hs : vec.Pairwise (fun a b => hash_of a ≤ hash_of b)) :
    ∀ fuel first count, count ≤ fuel → first + count ≤ vec.length →
      (∀ x ∈ vec.take first, hash_of x < key) →
      (∀ x ∈ vec.drop (first + count), key ≤ hash_of x) →
      (∀ x ∈ vec.take (lower_bound_loop hash_of vec key fuel first count), hash_of x < key) ∧
      (∀ x ∈ vec.drop (lower_bound_loop hash_of vec key fuel first count), key ≤ hash_of x) := by
  intro fuel
  induction fuel with
  | zero =>
    intro first count hc _ h1 h2
    have : count = 0 := by omega
    subst this
    exact ⟨by simpa [lower_bound_loop] using h1, by simpa [lower_bound_loop] using h2⟩
  | succ fuel ih =>
    intro first count hc hlen h1 h2
    by_cases h0 : count = 0
    · subst h0
      exact ⟨by simpa [lower_bound_loop] using h1, by simpa [lower_bound_loop] using h2⟩
    · have hmid : first + count / 2 < vec.length := by omega
      have hget : vec[first + count / 2]? = some vec[first + count / 2] :=
        List.getElem?_eq_getElem hmid
      have hdrop := drop_of_getElem? vec _ _ hget
      have htake := take_succ_of_getElem? vec _ _ hget
      have hsplit : vec.take (first + count / 2) ++ vec.drop (first + count / 2) = vec :=
        List.take_append_drop _ _
      rw [hdrop] at hsplit
      rw [← hsplit] at hs
      obtain ⟨-, hs2, hs3⟩ := List.pairwise_append.1 hs
      obtain ⟨hs4, -⟩ := List.pairwise_cons.1 hs2
      simp only [lower_bound_loop, h0, if_false, hget]
      by_cases hlt : hash_of vec[first + count / 2] < key
      · simp only [hlt, if_true]
        apply ih
        · omega
        · omega
        · intro x hx
          rw [htake] at hx
          rcases List.mem_append.1 hx with hx | hx
          · exact lt_of_le_of_lt (hs3 x hx _ (List.mem_cons_self _ _)) hlt
          · simp only [List.mem_singleton] at hx
            rw [hx]
            exact hlt
        · have : first + count / 2 + 1 + (count - (count / 2 + 1)) = first + count := by omega
          rw [this]
          exact h2
      · simp only [hlt, if_false]
        apply ih
        · omega
        · omega
        · exact h1
        · intro x hx
          rw [hdrop] at hx
          rcases List.mem_cons.1 hx with hx | hx
          · rw [hx]
            omega
          · have := hs4 x hx
            omega

theorem lower_bound_partitions (vec : List gname) (key : Nat)
    (hs : sorted_nodupe hash_of vec) :
    (∀ x ∈ vec.take (lower_bound hash_of vec key), hash_of x < key) ∧
    (∀ x ∈ vec.drop (lower_bound hash_of vec key), key ≤ hash_of x) := by
  apply lower_bound_loop_partitions hash_of vec key (hs.imp (fun h => Nat.le_of_lt h))
    vec.length 0 vec.length (le_refl _) (by omega)
  · simp
  · simp

/-- Without any assumption on the vector: the result of `insert_sorted_nodupe` is either the
vector itself, when the entry at the position found has the hash of the item, or the vector with
the item put in at that position. -/
theorem insert_sorted_nodupe_cases (vec : List gname) (item : gname) :
    ((insert_sorted_nodupe hash_of vec item).second = false ∧
      (insert_sorted_nodupe hash_of vec item).vec = vec ∧
      ∃ x ∈ vec, hash_of x = hash_of item) ∨
    ((insert_sorted_nodupe hash_of vec item).second = true ∧
      (insert_sorted_nodupe hash_of vec item).vec =
        vec.take (lower_bound hash_of vec (hash_of item)) ++
          item :: vec.drop (lower_bound hash_of vec (hash_of item))) := by
  cases hget : vec[lower_bound hash_of vec (hash_of item)]? with
  | none => simp [insert_sorted_nodupe, hget]
  | some x =>
    by_cases hx : hash_of x = hash_of item
    · refine Or.inl ⟨?_, ?_, x, List.getElem?_mem hget, hx⟩ <;>
        simp [insert_sorted_nodupe, hget, hx]
    · simp [insert_sorted_nodupe, hget, hx]

theorem register_name_list (self : CName_resolver) (name : gname) :
    (self.register_name hash_of name).m_full_list =
      (insert_sorted_nodupe hash_of self.m_full_list name).vec := by
  simp [CName_resolver.register_name]

/-- On a registry sorted by hash without duplicates, a name whose hash is present is found. -/
theorem insert_sorted_nodupe_present (vec : List gname) (item : gname)
    (hs : sorted_nodupe hash_of vec) (hp : ∃ e ∈ vec, hash_of e = hash_of item) :
    (insert_sorted_nodupe hash_of vec item).vec = vec := by
  obtain ⟨e, he, hee⟩ := hp
  rcases insert_sorted_nodupe_cases hash_of vec item with h | h
  · exact h.2.1
  · exfalso
    obtain ⟨h1, h2⟩ := lower_bound_partitions hash_of vec (hash_of item) hs
    have hmem : e ∈ vec.drop (lower_bound hash_of vec (hash_of item)) := by
      rw [← List.take_append_drop (lower_bound hash_of vec (hash_of item)) vec] at he
      rcases List.mem_append.1 he with he | he
      · have := h1 e he
        omega
      · exact he
    cases hget : vec[lower_bound hash_of vec (hash_of item)]? with
    | none =>
      have hlen : vec.length ≤ lower_bound hash_of vec (hash_of item) := by
        simpa using hget
      rw [List.drop_of_length_le hlen] at hmem
      simp at hmem
    | some x =>
      have hdrop := drop_of_getElem? vec _ _ hget
      have hsd : (vec.drop (lower_bound hash_of vec (hash_of item))).Pairwise
          (fun a b => hash_of a < hash_of b) := hs.sublist (List.drop_sublist _ _)
      rw [hdrop] at hsd hmem h2
      have hxk := h2 x (List.mem_cons_self _ _)
      have hxe : hash_of x = hash_of item := by
        rcases List.mem_cons.1 hmem with hm | hm
        · rw [← hm]
          exact hee
        · have := (List.pairwise_cons.1 hsd).1 e hm
          omega
      have hsec := h.1
      simp [insert_sorted_nodupe, hget, hxe] at hsec

/-- On a registry sorted by hash without duplicates, a name whose hash is absent is inserted
between the entries of smaller hash and the entries of larger hash. -/
theorem insert_sorted_nodupe_absent (vec : List gname) (item : gname)
    (hs : sorted_nodupe hash_of vec) (ha : ∀ e ∈ vec, hash_of e ≠ hash_of item) :
    ∃ pre post, vec = pre ++ post ∧
      (insert_sorted_nodupe hash_of vec item).vec = pre ++ item :: post ∧
      (∀ e ∈ pre, hash_of e < hash_of item) ∧ (∀ e ∈ post, hash_of item < hash_of e) := by
  obtain ⟨h1, h2⟩ := lower_bound_partitions hash_of vec (hash_of item) hs
  refine ⟨vec.take (lower_bound hash_of vec (hash_of item)),
    vec.drop (lower_bound hash_of vec (hash_of item)), (List.take_append_drop _ _).symm, ?_, h1, ?_⟩
  · rcases insert_sorted_nodupe_cases hash_of vec item with h | h
    · obtain ⟨x, hx, hxe⟩ := h.2.2
      exact absurd hxe (ha x hx)
    · exact h.2
  · intro e he
    have := h2 e he
    have := ha e (List.mem_of_mem_drop he)
    omega

theorem insert_sorted_nodupe_sorted (vec : List gname) (item : gname)
    (hs : sorted_nodupe hash_of vec) :
    sorted_nodupe hash_of (insert_sorted_nodupe hash_of vec item).vec := by
  by_cases hp : ∃ e ∈ vec, hash_of e = hash_of item
  · rw [insert_sorted_nodupe_present hash_of vec item hs hp]
    exact hs
  · have ha : ∀ e ∈ vec, hash_of e ≠ hash_of item := fun e he hee => hp ⟨e, he, hee⟩
    obtain ⟨pre, post, hv, hr, hpre, hpost⟩ := insert_sorted_nodupe_absent hash_of vec item hs ha
    rw [hr]
    unfold sorted_nodupe at hs ⊢
    rw [hv] at hs
    obtain ⟨hs1, hs2, -⟩ := List.pairwise_append.1 hs
    refine List.pairwise_append.2 ⟨hs1, List.pairwise_cons.2 ⟨hpost, hs2⟩, ?_⟩
    intro a ha b hb
    rcases List.mem_cons.1 hb with hb | hb
    · rw [hb]
      exact hpre a ha
    · exact lt_trans (hpre a ha) (hpost b hb)

theorem register_name_sorted (self : CName_resolver) (name : gname)
    (hs : sorted_nodupe hash_of self.m_full_list) :
    sorted_nodupe hash_of (self.register_name hash_of name).m_full_list := by
  rw [register_name_list]
  exact insert_sorted_nodupe_sorted hash_of _ name hs

/-- On any registry at all, `register_name` adds the hash of the name to the stored hashes and
nothing else. -/
theorem register_name_hashes (self : CName_resolver) (name : gname) (k : Nat) :
    k ∈ (self.register_name hash_of name).m_full_list.map hash_of ↔
      k ∈ self.m_full_list.map hash_of ∨ k = hash_of name := by
  rw [register_name_list]
  rcases insert_sorted_nodupe_cases hash_of self.m_full_list name with h | h
  · rw [h.2.1]
    obtain ⟨x, hx, hxe⟩ := h.2.2
    constructor
    · exact Or.inl
    · rintro (hk | hk)
      · exact hk
      · rw [hk]
        exact List.mem_map.2 ⟨x, hx, hxe⟩
  · rw [h.2]
    simp only [List.mem_map, mem_take_cons_drop]
    constructor
    · rintro ⟨a, ha | ha, hak⟩
      · exact Or.inr (by rw [← hak, ha])
      · exact Or.inl ⟨a, ha, hak⟩
    · rintro (⟨a, ha, hak⟩ | hk)
      · exact ⟨a, Or.inr ha, hak⟩
      · exact ⟨name, Or.inl rfl, hk.symm⟩

/-- When no entry collides with the name, `register_name` adds the name to the stored names and
nothing else. -/
theorem register_name_names (self : CName_resolver) (name : gname)
    (hc : ∀ e ∈ self.m_full_list, hash_of e = hash_of name → e = name) (x : gname) :
    x ∈ (self.register_name hash_of name).m_full_list ↔ x = name ∨ x ∈ self.m_full_list := by
  rw [register_name_list]
  rcases insert_sorted_nodupe_cases hash_of self.m_full_list name with h | h
  · rw [h.2.1]
    obtain ⟨e, he, hee⟩ := h.2.2
    have hn : name ∈ self.m_full_list := by
      rw [← hc e he hee]
      exact he
    constructor
    · exact Or.inr
    · rintro (hx | hx)
      · rw [hx]
        exact hn
      · exact hx
  · rw [h.2]
    exact mem_take_cons_drop _ _ _ _

theorem feed_eq_foldl (self : CName_resolver) (names : List gname) :
    self.feed hash_of names = names.foldl (CName_resolver.register_name hash_of) self := by
  unfold CName_resolver.feed
  induction names generalizing self with
  | nil => rfl
  | cons n rest ih => simp [CName_resolver.feed_loop, ih]

theorem feed_cons (self : CName_resolver) (n : gname) (rest : List gname) :
    self.feed hash_of (n :: rest) = (self.register_name hash_of n).feed hash_of rest := rfl

theorem feed_sorted (self : CName_resolver) (names : List gname)
    (hs : sorted_nodupe hash_of self.m_full_list) :
    sorted_nodupe hash_of (self.feed hash_of names).m_full_list := by
  induction names generalizing self with
  | nil => exact hs
  | cons n rest ih =>
    rw [feed_cons]
    exact ih _ (register_name_sorted hash_of self n hs)

theorem feed_hashes (self : CName_resolver) (names : List gname) (k : Nat) :
    k ∈ (self.feed hash_of names).m_full_list.map hash_of ↔
      k ∈ self.m_full_list.map hash_of ∨ k ∈ names.map hash_of := by
  induction names generalizing self with
  | nil => simp [CName_resolver.feed, CName_resolver.feed_loop]
  | cons n rest ih =>
    rw [feed_cons, ih, register_name_hashes]
    simp only [List.map_cons, List.mem_cons]
    tauto

theorem feed_names (self : CName_resolver) (names : List gname)
    (hc : ∀ a ∈ self.m_full_list ++ names, ∀ b ∈ self.m_full_list ++ names,
      hash_of a = hash_of b → a = b) (x : gname) :
    x ∈ (self.feed hash_of names).m_full_list ↔ x ∈ self.m_full_list ∨ x ∈ names := by
  induction names generalizing self with
  | nil => simp [CName_resolver.feed, CName_resolver.feed_loop]
  | cons n rest ih =>
    have hreg : ∀ y, y ∈ (self.register_name hash_of n).m_full_list ↔
        y = n ∨ y ∈ self.m_full_list :=
      register_name_names hash_of self n
        (fun e he hee => hc e (by simp [he]) n (by simp) hee)
    rw [feed_cons, ih, hreg]
    · simp only [List.mem_cons]
      tauto
    · intro a ha b hb hab
      apply hc a _ b _ hab
      · rcases List.mem_append.1 ha with ha | ha
        · rcases (hreg a).1 ha with ha | ha
          · simp [ha]
          · simp [ha]
        · simp [ha]
      · rcases List.mem_append.1 hb with hb | hb
        · rcases (hreg b).1 hb with hb | hb
          · simp [hb]
          · simp [hb]
        · simp [hb]

theorem sorted_nodupe_nodup (vec : List gname) (hs : sorted_nodupe hash_of vec) :
    (vec.map hash_of).Nodup := by
  unfold sorted_nodupe at hs
  rw [List.Nodup, List.pairwise_map]
  exact hs.imp (fun h => Nat.ne_of_lt h)

/-- Two registries sorted by hash without duplicates that store the same names are equal. -/
theorem sorted_nodupe_ext (l₁ l₂ : List gname) (h₁ : sorted_nodupe hash_of l₁)
    (h₂ : sorted_nodupe hash_of l₂) (hm : ∀ x, x ∈ l₁ ↔ x ∈ l₂) : l₁ = l₂ := by
  have n₁ : l₁.Nodup := List.Nodup.of_map hash_of (sorted_nodupe_nodup hash_of l₁ h₁)
  have n₂ : l₂.Nodup := List.Nodup.of_map hash_of (sorted_nodupe_nodup hash_of l₂ h₂)
  have hp : l₁.Perm l₂ := (List.perm_ext_iff_of_nodup n₁ n₂).2 hm
  haveI : IsAntisymm gname (fun a b => hash_of a < hash_of b) :=
    ⟨fun a b hab hba => absurd hab (Nat.lt_asymm hba)⟩
  exact List.eq_of_perm_of_sorted hp h₁ h₂

end resolver_lemmas

/-! ## The resolver: claims -/

section resolver_claims

/-- C4: on a registry sorted by hash with no two entries of equal hash, `register_name(n)` leaves
the registry unchanged when some entry has the hash of `n` (whatever that entry's content), and
otherwise yields the old registry with `n` put between the entries of smaller and those of larger
hash; either way the size grows by at most one and the result is again sorted by hash with no two
entries of equal hash. -/
theorem register_name_insert_if_absent (hash_of : gname → Nat) (r : CName_resolver) (n : gname)
    (hs : sorted_nodupe hash_of r.m_full_list) :
    ((∃ e ∈ r.m_full_list, hash_of e = hash_of n) → r.register_name hash_of n = r) ∧
    ((∀ e ∈ r.m_full_list, hash_of e ≠ hash_of n) →
      ∃ pre post, r.m_full_list = pre ++ post ∧
        (r.register_name hash_of n).m_full_list = pre ++ n :: post ∧
        (∀ e ∈ pre, hash_of e < hash_of n) ∧ (∀ e ∈ post, hash_of n < hash_of e)) ∧
    (r.register_name hash_of n).m_full_list.length ≤ r.m_full_list.length + 1 ∧
    sorted_nodupe hash_of (r.register_name hash_of n).m_full_list := by
  refine ⟨?_, ?_, ?_, register_name_sorted hash_of r n hs⟩
  · intro hp
    have := insert_sorted_nodupe_present hash_of r.m_full_list n hs hp
    rw [← register_name_list] at this
    cases r
    cases hreg : CName_resolver.register_name hash_of _ n
    simp_all
  · intro ha
    rw [register_name_list]
    exact insert_sorted_nodupe_absent hash_of r.m_full_list n hs ha
  · rw [register_name_list]
    rcases insert_sorted_nodupe_cases hash_of r.m_full_list n with h | h
    · rw [h.2.1]
      omega
    · rw [h.2]
      have := congrArg List.length (List.take_append_drop
        (lower_bound hash_of r.m_full_list (hash_of n)) r.m_full_list)
      simp only [List.length_append, List.length_cons] at this ⊢
      omega

/-- C4, witness: the registry holds `lQhKR7YQ8Bo`; the name `D1eyQvcBE4h` has the same FNV-1a
hash and a different content. -/
theorem register_name_insert_if_absent_witness :
    sorted_nodupe gname.hash (CName_resolver.mk [gn "lQhKR7YQ8Bo"]).m_full_list ∧
    (((∃ e ∈ (CName_resolver.mk [gn "lQhKR7YQ8Bo"]).m_full_list,
        gname.hash e = gname.hash (gn "D1eyQvcBE4h")) →
      (CName_resolver.mk [gn "lQhKR7YQ8Bo"]).register_name gname.hash (gn "D1eyQvcBE4h") =
        CName_resolver.mk [gn "lQhKR7YQ8Bo"]) ∧
    ((∀ e ∈ (CName_resolver.mk [gn "lQhKR7YQ8Bo"]).m_full_list,
        gname.hash e ≠ gname.hash (gn "D1eyQvcBE4h")) →
      ∃ pre post, (CName_resolver.mk [gn "lQhKR7YQ8Bo"]).m_full_list = pre ++ post ∧
        ((CName_resolver.mk [gn "lQhKR7YQ8Bo"]).register_name gname.hash
          (gn "D1eyQvcBE4h")).m_full_list = pre ++ gn "D1eyQvcBE4h" :: post ∧
        (∀ e ∈ pre, gname.hash e < gname.hash (gn "D1eyQvcBE4h")) ∧
        (∀ e ∈ post, gname.hash (gn "D1eyQvcBE4h") < gname.hash e)) ∧
    ((CName_resolver.mk [gn "lQhKR7YQ8Bo"]).register_name gname.hash
      (gn "D1eyQvcBE4h")).m_full_list.length ≤
        (CName_resolver.mk [gn "lQhKR7YQ8Bo"]).m_full_list.length + 1 ∧
    sorted_nodupe gname.hash
      ((CName_resolver.mk [gn "lQhKR7YQ8Bo"]).register_name gname.hash
        (gn "D1eyQvcBE4h")).m_full_list) :=
  ⟨by decide,
    register_name_insert_if_absent gname.hash (CName_resolver.mk [gn "lQhKR7YQ8Bo"])
      (gn "D1eyQvcBE4h") (by decide)⟩

/-- C6, as amended: `feed(batch)` yields the same registry as calling `register_name` once per
element in input order. For every registry, every batch and every permutation of the batch, the
two final registries store the same set of hashes; they store the same set of names provided no
two different names among the registry and the batch have the same hash, and then they are the
same registry when the registry fed is sorted by hash with no two entries of equal hash. -/
theorem feed_order_irrelevant (hash_of : gname → Nat) (r : CName_resolver)
    (batch permuted : List gname) (hp : batch.Perm permuted) :
    r.feed hash_of batch = batch.foldl (CName_resolver.register_name hash_of) r ∧
    (∀ k : Nat, k ∈ (r.feed hash_of batch).m_full_list.map hash_of ↔
      k ∈ (r.feed hash_of permuted).m_full_list.map hash_of) ∧
    ((∀ a ∈ r.m_full_list ++ batch, ∀ b ∈ r.m_full_list ++ batch,
        hash_of a = hash_of b → a = b) →
      (∀ x : gname, x ∈ (r.feed hash_of batch).m_full_list ↔
        x ∈ (r.feed hash_of permuted).m_full_list) ∧
      (sorted_nodupe hash_of r.m_full_list → r.feed hash_of batch = r.feed hash_of permuted)) := by
  refine ⟨feed_eq_foldl hash_of r batch, ?_, ?_⟩
  · intro k
    rw [feed_hashes, feed_hashes]
    have : k ∈ batch.map hash_of ↔ k ∈ permuted.map hash_of := (hp.map hash_of).mem_iff
    rw [this]
  · intro hc
    have hc2 : ∀ a ∈ r.m_full_list ++ permuted, ∀ b ∈ r.m_full_list ++ permuted,
        hash_of a = hash_of b → a = b := by
      intro a ha b hb
      apply hc a _ b _
      · rcases List.mem_append.1 ha with ha | ha
        · exact List.mem_append.2 (Or.inl ha)
        · exact List.mem_append.2 (Or.inr (hp.mem_iff.2 ha))
      · rcases List.mem_append.1 hb with hb | hb
        · exact List.mem_append.2 (Or.inl hb)
        · exact List.mem_append.2 (Or.inr (hp.mem_iff.2 hb))
    have hmem : ∀ x : gname, x ∈ (r.feed hash_of batch).m_full_list ↔
        x ∈ (r.feed hash_of permuted).m_full_list := by
      intro x
      rw [feed_names hash_of r batch hc, feed_names hash_of r permuted hc2, hp.mem_iff]
    refine ⟨hmem, ?_⟩
    intro hs
    have := sorted_nodupe_ext hash_of _ _ (feed_sorted hash_of r batch hs)
      (feed_sorted hash_of r permuted hs) hmem
    cases h1 : r.feed hash_of batch
    cases h2 : r.feed hash_of permuted
    simp_all

/-- C6, witness: the empty registry, the batch `a`, `b` and its permutation `b`, `a`. -/
theorem feed_order_irrelevant_witness :
    [gn "a", gn "b"].Perm [gn "b", gn "a"] ∧
    ((CName_resolver.mk []).feed gname.hash [gn "a", gn "b"] =
      [gn "a", gn "b"].foldl (CName_resolver.register_name gname.hash) (CName_resolver.mk []) ∧
    (∀ k : Nat,
      k ∈ ((CName_resolver.mk []).feed gname.hash [gn "a", gn "b"]).m_full_list.map gname.hash ↔
      k ∈ ((CName_resolver.mk []).feed gname.hash [gn "b", gn "a"]).m_full_list.map gname.hash) ∧
    ((∀ a ∈ (CName_resolver.mk []).m_full_list ++ [gn "a", gn "b"],
        ∀ b ∈ (CName_resolver.mk []).m_full_list ++ [gn "a", gn "b"],
        gname.hash a = gname.hash b → a = b) →
      (∀ x : gname,
        x ∈ ((CName_resolver.mk []).feed gname.hash [gn "a", gn "b"]).m_full_list ↔
        x ∈ ((CName_resolver.mk []).feed gname.hash [gn "b", gn "a"]).m_full_list) ∧
      (sorted_nodupe gname.hash (CName_resolver.mk []).m_full_list →
        (CName_resolver.mk []).feed gname.hash [gn "a", gn "b"] =
          (CName_resolver.mk []).feed gname.hash [gn "b", gn "a"]))) :=
  ⟨List.Perm.swap _ _ _,
    feed_order_irrelevant gname.hash (CName_resolver.mk []) [gn "a", gn "b"] [gn "b", gn "a"]
      (List.Perm.swap _ _ _)⟩

/-- C6, refuted as stated: `lQhKR7YQ8Bo` and `D1eyQvcBE4h` are different names with the same
FNV-1a hash; fed to the empty registry in one order only the first is stored, in the other order
only the second, so the two final sets of stored names differ. -/
theorem feed_order_changes_stored_names :
    [gn "lQhKR7YQ8Bo", gn "D1eyQvcBE4h"].Perm [gn "D1eyQvcBE4h", gn "lQhKR7YQ8Bo"] ∧
    gname.hash (gn "lQhKR7YQ8Bo") = gname.hash (gn "D1eyQvcBE4h") ∧
    (CName_resolver.mk []).feed gname.hash [gn "lQhKR7YQ8Bo", gn "D1eyQvcBE4h"] =
      CName_resolver.mk [gn "lQhKR7YQ8Bo"] ∧
    (CName_resolver.mk []).feed gname.hash [gn "D1eyQvcBE4h", gn "lQhKR7YQ8Bo"] =
      CName_resolver.mk [gn "D1eyQvcBE4h"] ∧
    ¬ (∀ x : gname,
      x ∈ ((CName_resolver.mk []).feed gname.hash
        [gn "lQhKR7YQ8Bo", gn "D1eyQvcBE4h"]).m_full_list ↔
      x ∈ ((CName_resolver.mk []).feed gname.hash
        [gn "D1eyQvcBE4h", gn "lQhKR7YQ8Bo"]).m_full_list) := by
  have h1 : (CName_resolver.mk []).feed gname.hash [gn "lQhKR7YQ8Bo", gn "D1eyQvcBE4h"] =
      CName_resolver.mk [gn "lQhKR7YQ8Bo"] := by decide
  have h2 : (CName_resolver.mk []).feed gname.hash [gn "D1eyQvcBE4h", gn "lQhKR7YQ8Bo"] =
      CName_resolver.mk [gn "D1eyQvcBE4h"] := by decide
  refine ⟨List.Perm.swap _ _ _, by decide, h1, h2, ?_⟩
  intro h
  have := (h (gn "lQhKR7YQ8Bo")).1 (by rw [h1]; simp)
  rw [h2] at this
  revert this
  decide

end resolver_claims

/-! ## Checks of the embedding on known values -/

/-- The standard FNV-1a test values, and the collision used above. -/
theorem fnv1a64_values :
    fnv1a64 "" = 0xcbf29ce484222325 ∧ fnv1a64 "a" = 0xaf63dc4c8601ec8c ∧
    fnv1a64 "b" = 0xaf63df4c8601f1a5 ∧ fnv1a64 "foobar" = 0x85944171f73967e8 ∧
    fnv1a64 "lQhKR7YQ8Bo" = 0x4bb4dd8289002981 ∧ fnv1a64 "D1eyQvcBE4h" = 0x4bb4dd8289002981 := by
  decide

theorem extension_values :
    extension "basegame.archive" = ".archive" ∧ extension "archive" = "" ∧
    extension ".archive" = "" ∧ extension "..archive" = ".archive" ∧
    extension "." = "" ∧ extension ".." = "" ∧ extension "a.b.archive" = ".archive" ∧
    extension "basegame.archive.bak" = ".bak" := by
  decide

/-- The failure path of `init` that releases a handle: the mount point is refused after the
handle `7` was created, and `reset` deletes it without stopping the dispatcher. -/
theorem init_mount_point_refused :
    fresh_session.init 0 mount_point_refused =
      .ok ⟨false,
        { fresh_session with content_path := ["C:", "game", "archive", "pc", "content"] },
        [.get_cp_executable_path,
          .filesystem_exists ["C:", "game", "archive", "pc", "content"],
          .oodle_is_available, .FspLoad, .FspFileSystemCreate, .set_UserContext 7,
          .FspFileSystemSetMountPoint 7, .FspFileSystemDelete 7]⟩ := rfl

/-- A whole life of a session: `init`, `load_archives`, `start`, `shutdown` twice, `reset`. -/
theorem lifecycle_trace :
    cpfs.run recording_index
      [.init 0 { mount_point_refused with set_mount_point := 0, mount_point := "Z:" },
        .load_archives (some [⟨["content", "basegame.archive"]⟩,
          ⟨["content", "lang_fr_voice.archive"]⟩, ⟨["content", "lang_en_voice.archive"]⟩,
          ⟨["content", "readme.txt"]⟩]),
        .start 0, .shutdown, .shutdown, .reset] fresh_session =
      .ok ({ fresh_session with
              content_path := ["C:", "game", "archive", "pc", "content"]
              disk_letter := "Z:"
              tfs := ["content/basegame.archive", "content/lang_en_voice.archive"] },
        [.get_cp_executable_path,
          .filesystem_exists ["C:", "game", "archive", "pc", "content"],
          .oodle_is_available, .FspLoad, .FspFileSystemCreate, .set_UserContext 7,
          .FspFileSystemSetMountPoint 7, .FspFileSystemMountPoint 7,
          .FspFileSystemSetDebugLog 7 0,
          .directory_iterator ["C:", "game", "archive", "pc", "content"],
          .load_archive "content/basegame.archive",
          .load_archive "content/lang_en_voice.archive",
          .FspFileSystemStartDispatcher 7, .FspFileSystemStopDispatcher 7,
          .FspFileSystemDelete 7]) := rfl

/-- The number of iterations granted to the binary search never cuts it short: any two bounds
that are at least `count` give the same position. -/
theorem lower_bound_loop_fuel (hash_of : gname → Nat) (vec : List gname) (key : Nat) :
    ∀ fuel fuel2 first count, count ≤ fuel → count ≤ fuel2 →
      lower_bound_loop hash_of vec key fuel first count =
        lower_bound_loop hash_of vec key fuel2 first count := by
  intro fuel
  induction fuel with
  | zero =>
    intro fuel2 first count h1 _
    have : count = 0 := by omega
    subst this
    cases fuel2 <;> simp [lower_bound_loop]
  | succ fuel ih =>
    intro fuel2 first count h1 h2
    cases fuel2 with
    | zero =>
      have : count = 0 := by omega
      subst this
      simp [lower_bound_loop]
    | succ fuel2 =>
      by_cases h0 : count = 0
      · simp [lower_bound_loop, h0]
      · simp only [lower_bound_loop, h0, if_false]
        cases vec[first + count / 2]? with
        | none => rfl
        | some x =>
          by_cases hlt : hash_of x < key
          · simp only [hlt, if_true]
            exact ih _ _ _ (by omega) (by omega)
          · simp only [hlt, if_false]
            exact ih _ _ _ (by omega) (by omega)

end cp
